import Mathlib

/-!
Verification of the WhatsApp transcript-audio reconciliation pipeline
(`src/main.py`).  Python strings are embedded as `List Char`; the Python
string operations used by the source (`in`, `find`, slicing, `strip`) are
given faithful counterparts below.  The Python `dict` used for the
transcription mapping is embedded as an insertion-ordered association list
with overwrite-on-existing-key semantics, matching `dict` assignment.
External effects (the Whisper engine, the filesystem, zip extraction) are
passed in as explicit parameters or state, so every function of the source
becomes a total, executable Lean function.
-/

/-- Python slice-bound normalisation: for a list of length `n`, a slice
bound `i` maps to `max 0 (n + i)` when negative and to `min i n`
otherwise. -/
def sliceIdx (n : Nat) (i : Int) : Nat :=
  if i < 0 then (i + n).toNat else min i.toNat n

/-- Python slice `l[a:b]` (step 1): elements from normalised index `a`
up to (excluding) normalised index `b`; empty when `b ≤ a`. -/
def pySlice (l : List Char) (a b : Int) : List Char :=
  (l.take (sliceIdx l.length b)).drop (sliceIdx l.length a)

/-- Index of the first occurrence of `sub` in `l` (an occurrence at `i`
means `sub` is a prefix of `l.drop i`), or `none`. -/
def firstIdx (sub : List Char) : List Char → Option Nat
  | [] => if sub.isEmpty then some 0 else none
  | c :: t =>
    if sub.isPrefixOf (c :: t) then some 0
    else (firstIdx sub t).map (· + 1)

/-- Python `sub in l` (substring containment test). -/
def strContains (l sub : List Char) : Bool :=
  (firstIdx sub l).isSome

/-- Python `l.find(sub)`: index of the first occurrence, or `-1`. -/
def pyFind (l sub : List Char) : Int :=
  match firstIdx sub l with
  | some i => (i : Int)
  | none => -1

/-- The whitespace characters removed by Python `str.strip()` (ASCII
whitespace; the source's transcriptions pass through this). -/
def pySpace (c : Char) : Bool :=
  c = ' ' || c = '\t' || c = '\n' || c = '\r' || c = '\x0b' || c = '\x0c'

/-- Python `s.strip()`: remove leading and trailing whitespace. -/
def pyStrip (l : List Char) : List Char :=
  ((l.dropWhile pySpace).reverse.dropWhile pySpace).reverse

/-- The transcription mapping: a Python `dict` from filename to text,
embedded as an insertion-ordered association list with unique keys. -/
abbrev Dict := List (List Char × List Char)

/-- Python `d[k]` / `k in d`: value at key `k`, if present. -/
def dlookup : Dict → List Char → Option (List Char)
  | [], _ => none
  | (k, v) :: rest, key => if k = key then some v else dlookup rest key

/-- Python `d[k] = v`: overwrite the existing entry for `k` in place, or
append a new entry at the end. -/
def dinsert : Dict → List Char → List Char → Dict
  | [], k, v => [(k, v)]
  | (k', v') :: rest, k, v =>
    if k' = k then (k, v) :: rest else (k', v') :: dinsert rest k v

/-- Number of entries of the mapping whose key is `k`. -/
def countKey (d : Dict) (k : List Char) : Nat :=
  d.countP (fun p => p.1 = k)

/-- The literal attachment marker the guard tests for: `"<attached:"`. -/
def attachedMarker : List Char := "<attached:".data

/-- The marker-plus-space literal used for extraction: `"<attached: "`
(length 11, matching the source's `+ 11`). -/
def attachedMarkerSp : List Char := "<attached: ".data

/-- The audio extension token `".opus"` (length 5, matching `+ 5`). -/
def opusExt : List Char := ".opus".data

/-- The failure sentinel stored for a file whose transcription raised:
`"[Transcription failed]"`. -/
def failureSentinel : List Char := "[Transcription failed]".data

/-- The synthetic line inserted after a matched reference:
`f"    (Transcription: {transcription})\n"`. -/
def transcriptionLine (t : List Char) : List Char :=
  "    (Transcription: ".data ++ t ++ ")\n".data

/-- `extract_whatsapp_zip` (src/main.py:45-63): the target directory is
explicit state (`none` = does not exist, `some files` = exists with those
contents); `unzip` is the outcome of `ZipFile(...).extractall` on the
given archive.  Returns the new directory state and whether extraction
work was performed; re-raises the extraction error otherwise. -/
def extract_whatsapp_zip (unzip : Except (List Char) (List (List Char)))
    (target : Option (List (List Char))) :
    Except (List Char) (Option (List (List Char)) × Bool) :=
  match target with
  | none =>
    match unzip with
    | .ok files => .ok (some files, true)
    | .error e => .error e
  | some files => .ok (some files, false)

/-- Lexicographic order on filenames, as Python compares the (same-
directory) `Path` objects returned by `glob` when `sorted` is applied. -/
def strLe : List Char → List Char → Bool
  | [], _ => true
  | _ :: _, [] => false
  | a :: as, b :: bs => if a = b then strLe as bs else decide (a < b)

/-- Insert into a `strLe`-sorted list, keeping it sorted. -/
def insertSorted (x : List Char) : List (List Char) → List (List Char)
  | [] => [x]
  | y :: ys => if strLe x y then x :: y :: ys else y :: insertSorted x ys

/-- Python `sorted` on filenames.  Any correct sort agrees with Python's
here because `strLe` is total and antisymmetric, so the sorted
permutation is unique. -/
def sortNames : List (List Char) → List (List Char)
  | [] => []
  | x :: xs => insertSorted x (sortNames xs)

/-- `find_audio_files` (src/main.py:86-98): the materialized directory is
given as its list of entry names; `glob("*.opus")` keeps the names ending
in `".opus"`, and `sorted` orders them ascending. -/
def find_audio_files (audio_folder : List (List Char)) : List (List Char) :=
  sortNames (audio_folder.filter (fun f => opusExt.isSuffixOf f))

/-- The value recorded for one audio file: the stripped text on success
(src/main.py:121-122), the sentinel on any raised error
(src/main.py:125-127). -/
def resultValue (r : Except (List Char) (List Char)) : List Char :=
  match r with
  | .ok t => pyStrip t
  | .error _ => failureSentinel

/-- The `for` loop of `transcribe_audio_files` (src/main.py:115-127),
threading the accumulating dict.  `engine f` is the outcome of
`model.transcribe(str(f), language="pt")["text"]` on file `f` (the
language hint is fixed, so it is folded into `engine`). -/
def transcribeFold (engine : List Char → Except (List Char) (List Char)) :
    List (List Char) → Dict → Dict
  | [], d => d
  | f :: rest, d => transcribeFold engine rest (dinsert d f (resultValue (engine f)))

/-- `transcribe_audio_files` (src/main.py:101-129): start from the empty
dict `transcriptions = {}` and process every file in order. -/
def transcribe_audio_files (engine : List Char → Except (List Char) (List Char))
    (audio_files : List (List Char)) : Dict :=
  transcribeFold engine audio_files []

/-- The guard of the attachment branch (src/main.py:171):
`"<attached:" in line and ".opus" in line`. -/
def attachGuard (line : List Char) : Bool :=
  strContains line attachedMarker && strContains line opusExt

/-- The identifier extraction (src/main.py:173-175):
`line[line.find("<attached: ") + 11 : line.find(".opus") + 5]`. -/
def extractFilename (line : List Char) : List Char :=
  pySlice line (pyFind line attachedMarkerSp + 11) (pyFind line opusExt + 5)

/-- One iteration of the integration loop (src/main.py:170-187): the
lines appended for `line` and the number of transcriptions added. -/
def processLine (transcriptions : Dict) (line : List Char) :
    List (List Char) × Nat :=
  if attachGuard line then
    match dlookup transcriptions (extractFilename line) with
    | some t => ([line, transcriptionLine t], 1)
    | none => ([line], 0)
  else
    ([line], 0)

/-- `integrate_transcriptions` (src/main.py:154-189): concatenate the
per-line outputs in order and sum the insertion counts. -/
def integrate_transcriptions (chat_lines : List (List Char))
    (transcriptions : Dict) : List (List Char) × Nat :=
  match chat_lines with
  | [] => ([], 0)
  | line :: rest =>
    let p := processLine transcriptions line
    let r := integrate_transcriptions rest transcriptions
    (p.1 ++ r.1, p.2 + r.2)

/-- The spec's description of identifier extraction (spec §4.4 step 2):
the substring beginning immediately after the first `"<attached: "`
(marker, separator and one space — 11 characters) and ending at the first
occurrence of `".opus"` AFTER the marker, plus its length. -/
def specExtract (line : List Char) : Option (List Char) :=
  match firstIdx attachedMarkerSp line with
  | none => none
  | some a =>
    match firstIdx opusExt (line.drop (a + 11)) with
    | none => none
    | some j => some ((line.drop (a + 11)).take (j + 5))

/-- A line for which the code inserts a transcription: the guard holds
and the extracted identifier is a key of the mapping. -/
def lineMatched (transcriptions : Dict) (line : List Char) : Bool :=
  attachGuard line && (dlookup transcriptions (extractFilename line)).isSome

theorem processLine_not_attach {tr : Dict} {l : List Char}
    (h : attachGuard l = false) : processLine tr l = ([l], 0) := by
  simp [processLine, h]

theorem processLine_miss {tr : Dict} {l : List Char}
    (h : dlookup tr (extractFilename l) = none) : processLine tr l = ([l], 0) := by
  unfold processLine
  cases hg : attachGuard l <;> simp [h]

theorem processLine_hit {tr : Dict} {l t : List Char}
    (hg : attachGuard l = true) (h : dlookup tr (extractFilename l) = some t) :
    processLine tr l = ([l, transcriptionLine t], 1) := by
  simp [processLine, hg, h]

theorem processLine_len (tr : Dict) (l : List Char) :
    (processLine tr l).1.length = 1 + (processLine tr l).2 := by
  unfold processLine
  cases hg : attachGuard l <;> simp
  cases h : dlookup tr (extractFilename l) <;> simp

theorem processLine_cnt (tr : Dict) (l : List Char) :
    (processLine tr l).2 = if lineMatched tr l then 1 else 0 := by
  unfold processLine lineMatched
  cases hg : attachGuard l <;> simp
  cases h : dlookup tr (extractFilename l) <;> simp

theorem processLine_cons (tr : Dict) (l : List Char) :
    ∃ tl, (processLine tr l).1 = l :: tl := by
  unfold processLine
  cases hg : attachGuard l <;> simp
  cases h : dlookup tr (extractFilename l) <;> simp

theorem integrate_nil (tr : Dict) : integrate_transcriptions [] tr = ([], 0) := rfl

theorem integrate_cons (tr : Dict) (l : List Char) (rest : List (List Char)) :
    integrate_transcriptions (l :: rest) tr =
      ((processLine tr l).1 ++ (integrate_transcriptions rest tr).1,
       (processLine tr l).2 + (integrate_transcriptions rest tr).2) := rfl

theorem integrate_fst (tr : Dict) (chat : List (List Char)) :
    (integrate_transcriptions chat tr).1 =
      chat.flatMap (fun l => (processLine tr l).1) := by
  induction chat with
  | nil => rfl
  | cons l rest ih => simp [integrate_cons, ih]

theorem integrate_snd (tr : Dict) (chat : List (List Char)) :
    (integrate_transcriptions chat tr).2 = chat.countP (lineMatched tr) := by
  induction chat with
  | nil => rfl
  | cons l rest ih =>
    rw [integrate_cons]
    simp only [List.countP_cons, ih, processLine_cnt]
    cases h : lineMatched tr l <;> simp [Nat.add_comm]

theorem integrate_len (tr : Dict) (chat : List (List Char)) :
    (integrate_transcriptions chat tr).1.length =
      chat.length + (integrate_transcriptions chat tr).2 := by
  induction chat with
  | nil => rfl
  | cons l rest ih =>
    rw [integrate_cons]
    simp only [List.length_append, List.length_cons, ih, processLine_len]
    omega

theorem integrate_sublist (tr : Dict) (chat : List (List Char)) :
    chat.Sublist (integrate_transcriptions chat tr).1 := by
  induction chat with
  | nil => simp
  | cons l rest ih =>
    rw [integrate_cons]
    obtain ⟨tl, htl⟩ := processLine_cons tr l
    rw [htl, List.cons_append]
    exact (ih.trans (List.sublist_append_right tl _)).cons₂ l

theorem dlookup_dinsert (d : Dict) (k v key : List Char) :
    dlookup (dinsert d k v) key = if key = k then some v else dlookup d key := by
  induction d with
  | nil =>
    by_cases h : k = key <;> simp [dinsert, dlookup, h, eq_comm]
  | cons p rest ih =>
    obtain ⟨k', v'⟩ := p
    by_cases hk : k' = k
    · subst hk
      by_cases h : k' = key
      · simp [dinsert, dlookup, h, eq_comm]
      · have h2 : ¬ key = k' := fun hh => h hh.symm
        simp [dinsert, dlookup, h, h2]
    · by_cases h1 : k' = key
      · have h2 : ¬ key = k := fun hh => hk (h1.trans hh)
        simp [dinsert, hk, dlookup, h1, h2]
      · simp [dinsert, hk, dlookup, h1, ih]

theorem countKey_dinsert_self (d : Dict) (k v : List Char) :
    countKey (dinsert d k v) k = max (countKey d k) 1 := by
  induction d with
  | nil => simp [dinsert, countKey]
  | cons p rest ih =>
    obtain ⟨k', v'⟩ := p
    by_cases hk : k' = k
    · subst hk
      simp [dinsert, countKey, List.countP_cons]
    · simp only [dinsert, if_neg hk, countKey, List.countP_cons] at ih ⊢
      simp [hk, ih]

theorem countKey_dinsert_other (d : Dict) (k v key : List Char)
    (hne : key ≠ k) : countKey (dinsert d k v) key = countKey d key := by
  induction d with
  | nil => simp [dinsert, countKey, List.countP_cons, hne.symm]
  | cons p rest ih =>
    obtain ⟨k', v'⟩ := p
    by_cases hk : k' = k
    · subst hk
      simp [dinsert, countKey, List.countP_cons, hne.symm]
    · simp only [dinsert, if_neg hk, countKey, List.countP_cons] at ih ⊢
      simp [ih]

theorem countKey_pos_of_lookup (d : Dict) (k : List Char)
    (h : (dlookup d k).isSome = true) : 1 ≤ countKey d k := by
  induction d with
  | nil => simp [dlookup] at h
  | cons p rest ih =>
    obtain ⟨k', v'⟩ := p
    by_cases hk : k' = k
    · subst hk; simp [countKey, List.countP_cons]
    · simp only [dlookup, if_neg hk] at h
      have := ih h
      simp only [countKey, List.countP_cons] at this ⊢
      omega

theorem transcribeFold_lookup_not_mem
    (engine : List Char → Except (List Char) (List Char))
    (files : List (List Char)) (d : Dict) (g : List Char) (hg : g ∉ files) :
    dlookup (transcribeFold engine files d) g = dlookup d g := by
  induction files generalizing d with
  | nil => simp [transcribeFold]
  | cons f rest ih =>
    have hne : g ≠ f := fun h => hg (h ▸ List.mem_cons_self f rest)
    have hrest : g ∉ rest := fun h => hg (List.mem_cons_of_mem f h)
    rw [transcribeFold, ih _ hrest, dlookup_dinsert]
    simp [hne]

theorem transcribeFold_lookup_mem
    (engine : List Char → Except (List Char) (List Char))
    (files : List (List Char)) (d : Dict) (g : List Char) (hg : g ∈ files) :
    dlookup (transcribeFold engine files d) g = some (resultValue (engine g)) := by
  induction files generalizing d with
  | nil => simp at hg
  | cons f rest ih =>
    by_cases hmem : g ∈ rest
    · rw [transcribeFold]; exact ih _ hmem
    · have hgf : g = f := by
        rcases List.mem_cons.mp hg with h | h
        · exact h
        · exact absurd h hmem
      subst hgf
      rw [transcribeFold, transcribeFold_lookup_not_mem _ _ _ _ hmem,
        dlookup_dinsert]
      simp

theorem transcribeFold_countKey_le
    (engine : List Char → Except (List Char) (List Char))
    (files : List (List Char)) (d : Dict) (k : List Char)
    (hd : countKey d k ≤ 1) :
    countKey (transcribeFold engine files d) k ≤ 1 := by
  induction files generalizing d with
  | nil => simpa [transcribeFold] using hd
  | cons f rest ih =>
    rw [transcribeFold]
    refine ih _ ?_
    by_cases hk : k = f
    · subst hk; rw [countKey_dinsert_self]; omega
    · rw [countKey_dinsert_other _ _ _ _ hk]; exact hd

/-- The ordering relation of `sortNames`, as a proposition. -/
def nameLe (a b : List Char) : Prop := strLe a b = true

theorem strLe_total : ∀ a b : List Char, strLe a b = true ∨ strLe b a = true
  | [], _ => Or.inl rfl
  | _ :: _, [] => Or.inr rfl
  | a :: as, b :: bs => by
    by_cases h : a = b
    · subst h
      simpa [strLe] using strLe_total as bs
    · rcases lt_or_gt_of_ne h with hlt | hgt
      · left; simp [strLe, h, hlt]
      · right
        have hne : ¬ b = a := fun hh => h hh.symm
        simp [strLe, hne]
        exact hgt

theorem strLe_trans : ∀ a b c : List Char,
    strLe a b = true → strLe b c = true → strLe a c = true
  | [], _, _, _, _ => rfl
  | _ :: _, [], _, h1, _ => by simp [strLe] at h1
  | _ :: _, _ :: _, [], _, h2 => by simp [strLe] at h2
  | a :: as, b :: bs, c :: cs, h1, h2 => by
    by_cases hab : a = b <;> by_cases hbc : b = c
    · subst hab; subst hbc
      simp only [strLe, if_pos rfl] at h1 h2 ⊢
      exact strLe_trans as bs cs h1 h2
    · subst hab
      simp only [strLe, if_pos rfl] at h1
      simp only [strLe, if_neg hbc] at h2
      have hlt : a < c := of_decide_eq_true h2
      simp [strLe, ne_of_lt hlt, hlt]
    · subst hbc
      simp only [strLe, if_neg hab] at h1
      have hlt : a < b := of_decide_eq_true h1
      simp [strLe, ne_of_lt hlt, hlt]
    · simp only [strLe, if_neg hab] at h1
      simp only [strLe, if_neg hbc] at h2
      have hlt : a < c := lt_trans (of_decide_eq_true h1) (of_decide_eq_true h2)
      simp [strLe, ne_of_lt hlt, hlt]

theorem strLe_antisymm : ∀ a b : List Char,
    strLe a b = true → strLe b a = true → a = b
  | [], [], _, _ => rfl
  | [], _ :: _, _, h2 => by simp [strLe] at h2
  | _ :: _, [], h1, _ => by simp [strLe] at h1
  | a :: as, b :: bs, h1, h2 => by
    by_cases h : a = b
    · subst h
      simp only [strLe, if_pos rfl] at h1 h2
      rw [strLe_antisymm as bs h1 h2]
    · have hne : ¬ b = a := fun hh => h hh.symm
      simp only [strLe, if_neg h] at h1
      simp only [strLe, if_neg hne] at h2
      exact absurd (of_decide_eq_true h1) (asymm (of_decide_eq_true h2))

instance : IsAntisymm (List Char) nameLe :=
  ⟨fun a b h1 h2 => strLe_antisymm a b h1 h2⟩

theorem insertSorted_perm (x : List Char) (l : List (List Char)) :
    (insertSorted x l).Perm (x :: l) := by
  induction l with
  | nil => exact List.Perm.refl _
  | cons y ys ih =>
    by_cases h : strLe x y
    · simp [insertSorted, h]
    · simp only [insertSorted, if_neg h]
      exact (ih.cons y).trans (List.Perm.swap x y ys)

theorem insertSorted_sorted (x : List Char) (l : List (List Char))
    (hl : l.Pairwise nameLe) : (insertSorted x l).Pairwise nameLe := by
  induction l with
  | nil => simp [insertSorted]
  | cons y ys ih =>
    rcases List.pairwise_cons.mp hl with ⟨hy, hys⟩
    by_cases h : strLe x y = true
    · simp only [insertSorted, if_pos h]
      refine List.Pairwise.cons ?_ hl
      intro z hz
      rcases List.mem_cons.mp hz with rfl | hz
      · exact h
      · exact strLe_trans x y z h (hy z hz)
    · simp only [insertSorted, if_neg h]
      refine List.Pairwise.cons ?_ (ih hys)
      intro z hz
      have hz' : z ∈ x :: ys := (insertSorted_perm x ys).subset hz
      rcases List.mem_cons.mp hz' with rfl | hz'
      · rcases strLe_total z y with h' | h'
        · exact absurd h' h
        · exact h'
      · exact hy z hz'

theorem sortNames_perm (l : List (List Char)) : (sortNames l).Perm l := by
  induction l with
  | nil => exact List.Perm.refl _
  | cons x xs ih =>
    exact (insertSorted_perm x (sortNames xs)).trans (ih.cons x)

theorem sortNames_sorted (l : List (List Char)) :
    (sortNames l).Pairwise nameLe := by
  induction l with
  | nil => simp [sortNames]
  | cons x xs ih => exact insertSorted_sorted x (sortNames xs) ih

theorem sortNames_eq_of_perm {l l' : List (List Char)} (h : l.Perm l') :
    sortNames l = sortNames l' :=
  List.eq_of_perm_of_sorted
    ((sortNames_perm l).trans (h.trans (sortNames_perm l').symm))
    (sortNames_sorted l) (sortNames_sorted l')

theorem isPrefixOf_le : ∀ sub l : List Char,
    sub.isPrefixOf l = true → sub.length ≤ l.length
  | [], _, _ => Nat.zero_le _
  | _ :: _, [], h => by simp [List.isPrefixOf] at h
  | a :: as, b :: bs, h => by
    simp only [List.isPrefixOf, Bool.and_eq_true] at h
    simpa using isPrefixOf_le as bs h.2

theorem firstIdx_le_length (sub : List Char) :
    ∀ (l : List Char) (i : Nat), firstIdx sub l = some i → i ≤ l.length := by
  intro l
  induction l with
  | nil =>
    intro i h
    by_cases he : sub.isEmpty <;> simp [firstIdx, he] at h
    omega
  | cons c t ih =>
    intro i h
    by_cases hp : sub.isPrefixOf (c :: t) <;> simp [firstIdx, hp] at h
    · omega
    · obtain ⟨j, hj, rfl⟩ := h
      have := ih j hj
      simp only [List.length_cons]
      omega

theorem firstIdx_drop_isPrefixOf (sub : List Char) :
    ∀ (l : List Char) (i : Nat), firstIdx sub l = some i →
      sub.isPrefixOf (l.drop i) = true := by
  intro l
  induction l with
  | nil =>
    intro i h
    by_cases he : sub.isEmpty <;> simp [firstIdx, he] at h
    obtain ⟨rfl, rfl⟩ := h
    simp [List.isEmpty_iff.mp he, List.isPrefixOf]
  | cons c t ih =>
    intro i h
    by_cases hp : sub.isPrefixOf (c :: t) <;> simp [firstIdx, hp] at h
    · subst h; simpa using hp
    · obtain ⟨j, hj, rfl⟩ := h
      simpa [List.drop_succ_cons] using ih j hj

theorem firstIdx_drop (sub : List Char) :
    ∀ (s : Nat) (l : List Char) (p : Nat), firstIdx sub l = some p → s ≤ p →
      firstIdx sub (l.drop s) = some (p - s) := by
  intro s
  induction s with
  | zero => intro l p h _; simpa using h
  | succ s ih =>
    intro l p h hs
    cases l with
    | nil =>
      by_cases he : sub.isEmpty <;> simp [firstIdx, he] at h
      omega
    | cons c t =>
      by_cases hp : sub.isPrefixOf (c :: t) <;> simp [firstIdx, hp] at h
      · omega
      · obtain ⟨j, hj, rfl⟩ := h
        rw [List.drop_succ_cons]
        rw [ih t j hj (by omega)]
        congr 1
        omega

theorem pyFind_eq {l sub : List Char} {i : Nat} (h : firstIdx sub l = some i) :
    pyFind l sub = (i : Int) := by
  simp [pyFind, h]

theorem pySlice_nat (l : List Char) (a b : Nat)
    (ha : a ≤ l.length) (hb : b ≤ l.length) :
    pySlice l (a : Int) (b : Int) = (l.take b).drop a := by
  unfold pySlice sliceIdx
  have h1 : ¬ ((b : Int) < 0) := by omega
  have h2 : ¬ ((a : Int) < 0) := by omega
  simp only [if_neg h1, if_neg h2, Int.toNat_natCast]
  rw [min_eq_left ha, min_eq_left hb]

/-- Claim C1 (amended).  For a line containing both `"<attached: "` and
`".opus"`, the code's extracted identifier equals the spec's filename
span — bounded by the first attachment-open token and the first extension
token after it — PROVIDED the first occurrence of `".opus"` in the whole
line is not before the end of the first `"<attached: "` marker.  (The
code searches `".opus"` from the start of the line, not from the marker;
see the counterexample for the general statement.) -/
theorem c1_span (line : List Char) (a p : Nat)
    (h1 : firstIdx attachedMarkerSp line = some a)
    (h2 : firstIdx opusExt line = some p)
    (h3 : a + 11 ≤ p) :
    specExtract line = some (extractFilename line) := by
  have hpre2 := firstIdx_drop_isPrefixOf opusExt line p h2
  have hlen2 := isPrefixOf_le _ _ hpre2
  have hexd : opusExt.length = 5 := rfl
  rw [hexd, List.length_drop] at hlen2
  have hple : p ≤ line.length := firstIdx_le_length _ _ _ h2
  have h5 : p + 5 ≤ line.length := by omega
  unfold extractFilename
  rw [pyFind_eq h1, pyFind_eq h2]
  have e1 : ((a : Int) + 11) = ((a + 11 : Nat) : Int) := by push_cast; ring
  have e2 : ((p : Int) + 5) = ((p + 5 : Nat) : Int) := by push_cast; ring
  rw [e1, e2, pySlice_nat _ _ _ (by omega) (by omega)]
  simp only [specExtract, h1]
  rw [firstIdx_drop opusExt (a + 11) line p h2 h3]
  rw [List.drop_take]
  have harith : p + 5 - (a + 11) = p - (a + 11) + 5 := by omega
  rw [harith]

/-- Claim C1, counterexample to the claim as stated: in the line
`".opus <attached: a.opus>\n"` both markers are present, but the code
extracts the empty string (`find(".opus")` hits the `".opus"` BEFORE the
marker, so the slice is empty), while the spec's span — ending at the
first `".opus"` after the marker — is `"a.opus"`. -/
theorem c1_span_cex :
    strContains (".opus <attached: a.opus>\n".data) attachedMarkerSp = true ∧
    strContains (".opus <attached: a.opus>\n".data) opusExt = true ∧
    extractFilename (".opus <attached: a.opus>\n".data) = [] ∧
    specExtract (".opus <attached: a.opus>\n".data) = some "a.opus".data ∧
    specExtract (".opus <attached: a.opus>\n".data) ≠
      some (extractFilename (".opus <attached: a.opus>\n".data)) := by
  refine ⟨by decide, by decide, by decide, by decide, by decide⟩

/-- Witness for `c1_span` at the spec's own example line. -/
theorem c1_span_witness :
    specExtract ("[10:00] Alice: <attached: 00001.opus>\n".data) =
      some (extractFilename ("[10:00] Alice: <attached: 00001.opus>\n".data)) :=
  c1_span ("[10:00] Alice: <attached: 00001.opus>\n".data) 15 31
    (by decide) (by decide) (by decide)

theorem attachGuard_false_iff (l : List Char) :
    attachGuard l = false ↔
      ¬(strContains l attachedMarker = true ∧ strContains l opusExt = true) := by
  unfold attachGuard
  cases strContains l attachedMarker <;> cases strContains l opusExt <;> simp

theorem attachGuard_true_intro (l : List Char)
    (h1 : strContains l attachedMarker = true)
    (h2 : strContains l opusExt = true) : attachGuard l = true := by
  simp [attachGuard, h1, h2]

theorem pyFind_neg_one {l sub : List Char} (h : strContains l sub = false) :
    pyFind l sub = -1 := by
  unfold strContains at h
  unfold pyFind
  cases hf : firstIdx sub l
  · rfl
  · rw [hf] at h; simp at h

theorem processLine_fst_explicit (tr : Dict) (l : List Char) :
    (processLine tr l).1 =
      if lineMatched tr l then
        [l, transcriptionLine ((dlookup tr (extractFilename l)).getD [])]
      else [l] := by
  unfold processLine lineMatched
  cases hg : attachGuard l <;> simp
  cases h : dlookup tr (extractFilename l) <;> simp

/-- Claim C2: for any input lines and mapping, with `k` the number of
lines whose reference matches a mapping key, the output is the input with
exactly one synthetic line inserted immediately after each matching line
(the flatMap form), has exactly `input_line_count + k` lines, reports `k`
insertions, and contains every original line verbatim in its original
relative order (the input is a sublist of the output). -/
theorem c2_line_count (chat : List (List Char)) (tr : Dict) :
    (integrate_transcriptions chat tr).1 =
      chat.flatMap (fun l =>
        if lineMatched tr l then
          [l, transcriptionLine ((dlookup tr (extractFilename l)).getD [])]
        else [l]) ∧
    (integrate_transcriptions chat tr).1.length =
      chat.length + chat.countP (lineMatched tr) ∧
    (integrate_transcriptions chat tr).2 = chat.countP (lineMatched tr) ∧
    chat.Sublist (integrate_transcriptions chat tr).1 := by
  refine ⟨?_, ?_, integrate_snd tr chat, integrate_sublist tr chat⟩
  · rw [integrate_fst]
    simp only [processLine_fst_explicit]
  · rw [integrate_len, integrate_snd]

/-- Claim C5: a line failing the marker guard passes through with no
insertion, and a line whose extracted identifier is not a mapping key
passes through with no insertion and no error (a silent no-op). -/
theorem c5_no_false_insertion (line : List Char) (rest : List (List Char))
    (tr : Dict) :
    (attachGuard line = false →
      integrate_transcriptions (line :: rest) tr =
        (line :: (integrate_transcriptions rest tr).1,
         (integrate_transcriptions rest tr).2)) ∧
    (dlookup tr (extractFilename line) = none →
      integrate_transcriptions (line :: rest) tr =
        (line :: (integrate_transcriptions rest tr).1,
         (integrate_transcriptions rest tr).2)) := by
  constructor
  · intro h
    rw [integrate_cons, processLine_not_attach h]
    simp
  · intro h
    rw [integrate_cons, processLine_miss h]
    simp

/-- Witness for `c5_no_false_insertion`: a plain line, and a reference
line whose identifier `"00002.opus"` is absent from the mapping. -/
theorem c5_witness :
    integrate_transcriptions ["hello\n".data]
      [("00001.opus".data, "hello there".data)] = (["hello\n".data], 0) ∧
    integrate_transcriptions ["a: <attached: 00002.opus>\n".data]
      [("00001.opus".data, "hello there".data)] =
      (["a: <attached: 00002.opus>\n".data], 0) := by
  constructor
  · have h := (c5_no_false_insertion "hello\n".data []
      [("00001.opus".data, "hello there".data)]).1 (by decide)
    simpa [integrate_nil] using h
  · have h := (c5_no_false_insertion "a: <attached: 00002.opus>\n".data []
      [("00001.opus".data, "hello there".data)]).2 (by decide)
    simpa [integrate_nil] using h

/-- Claim C6: a log with zero attachment references (no line contains
both markers) is returned byte-identical, with zero insertions, for any
mapping. -/
theorem c6_round_trip (chat : List (List Char)) (tr : Dict)
    (h : ∀ l ∈ chat,
      ¬(strContains l attachedMarker = true ∧ strContains l opusExt = true)) :
    integrate_transcriptions chat tr = (chat, 0) := by
  induction chat with
  | nil => rfl
  | cons l rest ih =>
    have hg : attachGuard l = false :=
      (attachGuard_false_iff l).mpr (h l (List.mem_cons_self l rest))
    rw [integrate_cons, processLine_not_attach hg,
      ih (fun x hx => h x (List.mem_cons_of_mem l hx))]
    rfl

/-- Witness for `c6_round_trip`: two lines without the marker pair (the
second even contains `".opus"`), against a non-empty mapping. -/
theorem c6_witness :
    integrate_transcriptions ["hi\n".data, "only .opus here\n".data]
      [("00001.opus".data, "hello there".data)] =
      (["hi\n".data, "only .opus here\n".data], 0) :=
  c6_round_trip _ _ (by decide)

/-- Claim C7: the inserted line for a matched reference with text `t` is
exactly four spaces, `"(Transcription: "`, `t`, `")"` and a newline; when
the stored value is the failure sentinel the same fixed failure label
appears in place of the text; each insertion adds exactly 1 to the
counter, and the returned counter equals the number of inserted lines
(output length minus input length). -/
theorem c7_inserted_format (line t : List Char) (tr : Dict)
    (chat : List (List Char))
    (hg : attachGuard line = true)
    (hl : dlookup tr (extractFilename line) = some t) :
    processLine tr line =
      ([line, "    (Transcription: ".data ++ t ++ ")\n".data], 1) ∧
    (t = failureSentinel →
      processLine tr line =
        ([line, "    (Transcription: [Transcription failed])\n".data], 1)) ∧
    (integrate_transcriptions chat tr).1.length =
      chat.length + (integrate_transcriptions chat tr).2 := by
  refine ⟨processLine_hit hg hl, ?_, integrate_len tr chat⟩
  rintro rfl
  rw [processLine_hit hg hl]
  rfl

/-- Witness for `c7_inserted_format`: a reference whose mapping value is
the failure sentinel; the annotated output shows the failure label and
counts one insertion. -/
theorem c7_witness :
    processLine [("00002.opus".data, failureSentinel)]
      ("[10:01] B: <attached: 00002.opus>\n".data) =
      (["[10:01] B: <attached: 00002.opus>\n".data,
        "    (Transcription: [Transcription failed])\n".data], 1) :=
  ((c7_inserted_format ("[10:01] B: <attached: 00002.opus>\n".data)
    failureSentinel [("00002.opus".data, failureSentinel)] []
    (by decide) (by decide)).2.1) rfl

/-- Claim C3: per-file failure isolation — if the engine raises on file
`m`, the mapping records the failure sentinel for `m`; every file in the
list (including those after `m`) still gets an entry (each is attempted
exactly once, in order, by the fold); and every file whose transcription
succeeds gets its stripped text. -/
theorem c3_failure_isolation
    (engine : List Char → Except (List Char) (List Char))
    (files : List (List Char)) (m e : List Char)
    (hm : m ∈ files) (he : engine m = .error e) :
    dlookup (transcribe_audio_files engine files) m = some failureSentinel ∧
    (∀ f ∈ files,
      (dlookup (transcribe_audio_files engine files) f).isSome = true) ∧
    (∀ f ∈ files, ∀ t, engine f = .ok t →
      dlookup (transcribe_audio_files engine files) f = some (pyStrip t)) := by
  refine ⟨?_, ?_, ?_⟩
  · rw [transcribe_audio_files, transcribeFold_lookup_mem _ _ _ _ hm, he]
    rfl
  · intro f hf
    rw [transcribe_audio_files, transcribeFold_lookup_mem _ _ _ _ hf]
    rfl
  · intro f hf t ht
    rw [transcribe_audio_files, transcribeFold_lookup_mem _ _ _ _ hf, ht]
    rfl

/-- Witness for `c3_failure_isolation`: three files where the middle one
fails; the other two get their trimmed text. -/
theorem c3_witness :
    dlookup (transcribe_audio_files
      (fun f => if f = "b.opus".data then Except.error "corrupt".data
                else Except.ok " some text ".data)
      ["a.opus".data, "b.opus".data, "c.opus".data]) "b.opus".data =
      some failureSentinel ∧
    dlookup (transcribe_audio_files
      (fun f => if f = "b.opus".data then Except.error "corrupt".data
                else Except.ok " some text ".data)
      ["a.opus".data, "b.opus".data, "c.opus".data]) "c.opus".data =
      some "some text".data := by
  have h := c3_failure_isolation
    (fun f => if f = "b.opus".data then Except.error "corrupt".data
              else Except.ok " some text ".data)
    ["a.opus".data, "b.opus".data, "c.opus".data]
    "b.opus".data "corrupt".data (by decide) rfl
  refine ⟨h.1, ?_⟩
  have h2 := h.2.2 "c.opus".data (by decide) " some text ".data rfl
  rw [h2]
  decide

/-- Claim C4: after transcription, every file discovered by the locator
has exactly one mapping entry, keyed by its (base) name, whose value is
the stripped text when the engine succeeded on it and the failure
sentinel when it raised. -/
theorem c4_mapping_total (dir : List (List Char))
    (engine : List Char → Except (List Char) (List Char)) :
    ∀ f ∈ find_audio_files dir,
      countKey (transcribe_audio_files engine (find_audio_files dir)) f = 1 ∧
      ((∃ t, engine f = .ok t ∧
        dlookup (transcribe_audio_files engine (find_audio_files dir)) f =
          some (pyStrip t)) ∨
       (∃ err, engine f = .error err ∧
        dlookup (transcribe_audio_files engine (find_audio_files dir)) f =
          some failureSentinel)) := by
  intro f hf
  have hl := transcribeFold_lookup_mem engine (find_audio_files dir) [] f hf
  rw [transcribe_audio_files]
  constructor
  · have hle := transcribeFold_countKey_le engine (find_audio_files dir) [] f
      (by simp [countKey])
    have hge := countKey_pos_of_lookup _ f (by rw [hl]; rfl)
    omega
  · cases ht : engine f with
    | ok t =>
      left
      exact ⟨t, rfl, by rw [hl, ht]; rfl⟩
    | error err =>
      right
      exact ⟨err, rfl, by rw [hl, ht]; rfl⟩

/-- Witness for `c4_mapping_total` at a directory holding two audio files
and one other file, with an engine failing on one of them. -/
theorem c4_witness :
    countKey (transcribe_audio_files
      (fun f => if f = "b.opus".data then Except.error "corrupt".data
                else Except.ok " some text ".data)
      (find_audio_files ["b.opus".data, "note.txt".data, "a.opus".data]))
      "a.opus".data = 1 := by
  have h := c4_mapping_total ["b.opus".data, "note.txt".data, "a.opus".data]
    (fun f => if f = "b.opus".data then Except.error "corrupt".data
              else Except.ok " some text ".data)
    "a.opus".data (by decide)
  exact h.1

/-- Claim C8: the locator returns exactly the names ending in `".opus"`
(a permutation of the filter), sorted ascending; each returned name has
the extension; a directory with no such file yields `[]` (no error); and
the result is independent of the enumeration order of the directory. -/
theorem c8_locator (dir : List (List Char)) :
    (find_audio_files dir).Perm
      (dir.filter (fun f => opusExt.isSuffixOf f)) ∧
    (find_audio_files dir).Pairwise nameLe ∧
    (∀ f ∈ find_audio_files dir, opusExt.isSuffixOf f = true) ∧
    ((∀ f ∈ dir, opusExt.isSuffixOf f = false) → find_audio_files dir = []) ∧
    (∀ dir', dir.Perm dir' → find_audio_files dir = find_audio_files dir') := by
  refine ⟨sortNames_perm _, sortNames_sorted _, ?_, ?_, ?_⟩
  · intro f hf
    have hmem : f ∈ dir.filter (fun f => opusExt.isSuffixOf f) :=
      (sortNames_perm _).subset hf
    exact List.of_mem_filter hmem
  · intro h
    have hnil : dir.filter (fun f => opusExt.isSuffixOf f) = [] := by
      rw [List.filter_eq_nil_iff]
      intro a ha
      simp [h a ha]
    rw [find_audio_files, hnil]
    rfl
  · intro dir' hp
    exact sortNames_eq_of_perm (hp.filter _)

/-- Witness for `c8_locator`: extension membership, the empty case, and
enumeration-order independence at concrete directories. -/
theorem c8_witness :
    opusExt.isSuffixOf "a.opus".data = true ∧
    find_audio_files ["note.txt".data] = [] ∧
    find_audio_files ["b.opus".data, "a.opus".data] =
      find_audio_files ["a.opus".data, "b.opus".data] := by
  refine ⟨?_, ?_, ?_⟩
  · exact (c8_locator ["b.opus".data, "a.opus".data]).2.2.1 "a.opus".data
      (by decide)
  · exact (c8_locator ["note.txt".data]).2.2.2.1 (by decide)
  · exact (c8_locator ["b.opus".data, "a.opus".data]).2.2.2.2
      ["a.opus".data, "b.opus".data]
      (List.Perm.swap "a.opus".data "b.opus".data [])

/-- Claim C9: the materializer is idempotent — whenever a run succeeds
with resulting directory state `s`, a second run against the same archive
is a no-op (`work = false`) leaving `s` unchanged; and when the target
already exists its contents are left untouched with no extraction
work. -/
theorem c9_idempotent (unzip : Except (List Char) (List (List Char)))
    (t s : Option (List (List Char))) (w : Bool)
    (h : extract_whatsapp_zip unzip t = .ok (s, w)) :
    extract_whatsapp_zip unzip s = .ok (s, false) ∧
    (∀ d, t = some d → s = some d ∧ w = false) := by
  cases t with
  | some d =>
    simp only [extract_whatsapp_zip, Except.ok.injEq, Prod.mk.injEq] at h
    obtain ⟨rfl, rfl⟩ := h
    exact ⟨rfl, fun d' hd => by cases hd; exact ⟨rfl, rfl⟩⟩
  | none =>
    cases hu : unzip with
    | ok files =>
      rw [hu] at h
      simp only [extract_whatsapp_zip, Except.ok.injEq, Prod.mk.injEq] at h
      obtain ⟨rfl, rfl⟩ := h
      exact ⟨rfl, fun d hd => by cases hd⟩
    | error e =>
      rw [hu] at h
      simp [extract_whatsapp_zip] at h

/-- Witness for `c9_idempotent`: a first successful extraction into a
missing target, then the second run is a no-op on the resulting state. -/
theorem c9_witness :
    extract_whatsapp_zip (Except.ok ["_chat.txt".data, "00001.opus".data])
      (some ["_chat.txt".data, "00001.opus".data]) =
      .ok (some ["_chat.txt".data, "00001.opus".data], false) :=
  (c9_idempotent (Except.ok ["_chat.txt".data, "00001.opus".data]) none
    (some ["_chat.txt".data, "00001.opus".data]) true rfl).1

/-- Claim C10: the correlator is total and never drops a line — the input
is always a sublist of the output; and in the degenerate case of a line
containing `"<attached:"` without a following space (but with `".opus"`),
the attachment branch is still taken with `find("<attached: ") = -1`, so
the identifier is the slice starting at position `10`, and an annotation
is inserted exactly when that unintended identifier is a mapping key. -/
theorem c10_degenerate (chat : List (List Char)) (tr : Dict)
    (line : List Char)
    (hm : strContains line attachedMarker = true)
    (he : strContains line opusExt = true)
    (hs : strContains line attachedMarkerSp = false) :
    chat.Sublist (integrate_transcriptions chat tr).1 ∧
    pyFind line attachedMarkerSp = -1 ∧
    attachGuard line = true ∧
    extractFilename line = pySlice line 10 (pyFind line opusExt + 5) ∧
    (processLine tr line).1 = line ::
      (match dlookup tr (extractFilename line) with
       | some t => [transcriptionLine t]
       | none => []) := by
  have hfneg : pyFind line attachedMarkerSp = -1 := pyFind_neg_one hs
  have hg : attachGuard line = true := attachGuard_true_intro line hm he
  refine ⟨integrate_sublist tr chat, hfneg, hg, ?_, ?_⟩
  · unfold extractFilename
    rw [hfneg]
    norm_num
  · unfold processLine
    rw [hg]
    simp only [if_true]
    cases h : dlookup tr (extractFilename line) <;> simp

/-- Witness for `c10_degenerate`: the no-space line
`"x <attached:00001.opus>\n"` takes the branch, extracts the unintended
identifier `"d:00001.opus"` (slice from position 10), and an annotation
is inserted because the mapping happens to contain that key. -/
theorem c10_witness :
    extractFilename ("x <attached:00001.opus>\n".data) = "d:00001.opus".data ∧
    pyFind ("x <attached:00001.opus>\n".data) attachedMarkerSp = -1 ∧
    (processLine [("d:00001.opus".data, "w".data)]
      ("x <attached:00001.opus>\n".data)).1 =
      ["x <attached:00001.opus>\n".data,
       transcriptionLine "w".data] := by
  have h := c10_degenerate [] [("d:00001.opus".data, "w".data)]
    ("x <attached:00001.opus>\n".data) (by decide) (by decide) (by decide)
  refine ⟨by decide, h.2.1, ?_⟩
  rw [h.2.2.2.2]
  decide
